import Mathlib

set_option maxHeartbeats 1000000

namespace TranscriptFormatter

/-!
Shallow embedding of `src/main.py` (a transcript reformatter).

Strings are modelled as `List Char`.  Python's ASCII whitespace handling
(`str.split`, `str.strip`, the regex class `\s`) and the two regular
expressions of the source are translated directly.  Reading and writing
`.docx` files is an external library responsibility; the input document is
modelled as the list of its paragraph texts, the output document as the list
of table rows the script adds, and `os.path.exists` as a boolean parameter.
-/

/-- ASCII whitespace, as in Python's `str.split`/`str.strip` and the regex
class `\s` (restricted to ASCII). -/
def pyWs (c : Char) : Bool :=
  c = ' ' || c = '\t' || c = '\n' || c = '\r' || c = '\x0b' || c = '\x0c'

/-- ASCII digit, the regex class `\d` (restricted to ASCII). -/
def isDigit (c : Char) : Bool := '0' ≤ c && c ≤ '9'

/-- The regex class `[A-Z]` from `speaker_pattern`. -/
def isAZ (c : Char) : Bool := 'A' ≤ c && c ≤ 'Z'

/-- The regex word class `\w` (restricted to ASCII), used for `\b`. -/
def isWordChar (c : Char) : Bool :=
  isDigit c || isAZ c || ('a' ≤ c && c ≤ 'z') || c = '_'

/-- Python `str.strip()`: drop leading and trailing whitespace. -/
def pyStrip (s : List Char) : List Char :=
  (((s.dropWhile pyWs).reverse.dropWhile pyWs)).reverse

/-- Python `str.rstrip(':')`: drop trailing colons (from `words[0].rstrip(':')`,
line 172 of `src/main.py`). -/
def rstripColon (s : List Char) : List Char :=
  (s.reverse.dropWhile (fun c => c = ':')).reverse

/-- Worker for `splitWs`; `acc` holds the characters of the word currently
being read, in reverse. -/
def splitWsAux : List Char → List Char → List (List Char)
  | [], acc => if acc = [] then [] else [acc.reverse]
  | c :: cs, acc =>
    if pyWs c then
      if acc = [] then splitWsAux cs [] else acc.reverse :: splitWsAux cs []
    else splitWsAux cs (c :: acc)

/-- Python `str.split()` with no argument: split on runs of whitespace,
discarding empty strings. -/
def splitWs (s : List Char) : List (List Char) := splitWsAux s []

/-- Python `' '.join(ws)`. -/
def joinWords : List (List Char) → List Char
  | [] => []
  | [w] => w
  | w :: ws => w ++ ' ' :: joinWords ws

/-- The loop of `split_text_into_lines` (`src/main.py` lines 31-42):
arguments are the remaining words, the accumulated `lines`, the words of
`current_line` and `current_length`. -/
def stil_loop (maxLength : Nat) :
    List (List Char) → List (List Char) → List (List Char) → Nat → List (List Char)
  | [], lines, cur, _ =>
    if cur = [] then lines else lines ++ [joinWords cur]
  | w :: ws, lines, cur, curLen =>
    if curLen + w.length + (if curLen > 0 then 1 else 0) ≤ maxLength then
      stil_loop maxLength ws lines (cur ++ [w])
        (curLen + w.length + (if curLen > 0 then 1 else 0))
    else
      stil_loop maxLength ws
        (if cur = [] then lines else lines ++ [joinWords cur]) [w] w.length

/-- `split_text_into_lines(text, max_length)` from `src/main.py` lines 24-45:
split text into lines of at most `max_length` characters, preserving words. -/
def split_text_into_lines (text : List Char) (maxLength : Nat) : List (List Char) :=
  stil_loop maxLength (splitWs text) [] [] 0

/-! ### The regular expressions of `src/main.py` lines 130-132

`speaker_pattern  = re.compile(r'^[A-Z]+:?\s')`
`segment_marker_pattern = timecode_pattern = re.compile(r'\b(\d{1,2}:\d{2}(?::\d{2})?)\b')`
-/

/-- Scanner for `speaker_pattern` after its first character: consume the rest
of the `[A-Z]+` run, then accept an optional `:` followed by `\s`, or `\s`
directly.  Backtracking cannot stop the run early, because an uppercase letter
matches neither `:` nor `\s`. -/
def speakerRest : List Char → Bool
  | [] => false
  | c :: cs =>
    if isAZ c then speakerRest cs
    else if c = ':' then
      match cs with
      | [] => false
      | d :: _ => pyWs d
    else pyWs c

/-- `speaker_pattern.match(text)` as a Boolean: does `^[A-Z]+:?\s` match at
the start of `text`? -/
def speakerMatch : List Char → Bool
  | [] => false
  | c :: cs => isAZ c && speakerRest cs

/-- The trailing `\b` of the timecode pattern, checked right after a digit:
holds at end of string or before a non-word character. -/
def boundaryAfter : List Char → Bool
  | [] => true
  | c :: _ => !isWordChar c

/-- Match `\d{2}(?::\d{2})?\b` at the start of the list (the part of the
timecode pattern after `\d{1,2}:`), preferring the longer alternative as the
regex engine does.  Returns the matched characters. -/
def tcTail : List Char → Option (List Char)
  | m1 :: m2 :: rest =>
    if isDigit m1 && isDigit m2 then
      match rest with
      | ':' :: s1 :: s2 :: rest2 =>
        if isDigit s1 && isDigit s2 && boundaryAfter rest2 then
          some [m1, m2, ':', s1, s2]
        else if boundaryAfter rest then some [m1, m2]
        else none
      | _ => if boundaryAfter rest then some [m1, m2] else none
    else none
  | _ => none

/-- `timecode_pattern.match(text)`: match `\b\d{1,2}:\d{2}(?::\d{2})?\b` at
position 0 and return `group(0)`.  The leading `\b` holds at position 0 iff
the first character is a word character, which the first `\d` subsumes.
Greedy `\d{1,2}` prefers two digits; the one-digit backtrack can only succeed
when the second character is `:`. -/
def tcMatch : List Char → Option (List Char)
  | c1 :: c2 :: rest =>
    if isDigit c1 then
      if isDigit c2 then
        match rest with
        | ':' :: r => (tcTail r).map (fun t => c1 :: c2 :: ':' :: t)
        | _ => none
      else if c2 = ':' then (tcTail rest).map (fun t => c1 :: ':' :: t)
      else none
    else none
  | _ => none

/-- `timecode_pattern.search(text)`: try the anchored match at every position
from the left; `prevW` records whether the preceding character is a word
character (for the leading `\b`). -/
def tcSearchFind (prevW : Bool) : List Char → Option (List Char)
  | [] => none
  | c :: cs =>
    (if prevW then none else tcMatch (c :: cs)) <|> tcSearchFind (isWordChar c) cs

/-- Boolean form of `segment_marker_pattern.search(text)`. -/
def tcSearch (s : List Char) : Bool := (tcSearchFind false s).isSome

/-- Python's `pat in s`: substring containment. -/
def hasSubstr (pat : List Char) : List Char → Bool
  | [] => pat.isPrefixOf []
  | c :: cs => pat.isPrefixOf (c :: cs) || hasSubstr pat cs

/-- The literal `"----------"` (ten dashes) from lines 141 and 147. -/
def tenDashes : List Char := List.replicate 10 '-'

/-- The condition `segment_marker_pattern.search(text) and "----------" in text`
of lines 141 and 147. -/
def markerCond (text : List Char) : Bool :=
  tcSearch text && hasSubstr tenDashes text

/-- Python `s.replace(pat, "")` for a non-empty `pat`: delete every leftmost,
non-overlapping occurrence in one left-to-right pass. -/
def pyReplaceDel (pat : List Char) (s : List Char) : List Char :=
  match s with
  | [] => []
  | c :: cs =>
    if pat ≠ [] ∧ pat.isPrefixOf (c :: cs) then
      pyReplaceDel pat (cs.drop (pat.length - 1))
    else c :: pyReplaceDel pat cs
termination_by s.length
decreasing_by
  · simp only [List.length_drop, List.length_cons]
    omega
  · simp only [List.length_cons]
    omega

/-- Lines 164-167 of `src/main.py`: if the (stripped) line starts with a
timecode, remove every occurrence of the matched timecode and strip again. -/
def tcRemove (text : List Char) : List Char :=
  match tcMatch text with
  | some tc => pyStrip (pyReplaceDel tc text)
  | none => text

/-! ### The output table and the paragraph loop -/

/-- A row added to the output table: either a merged full-width row
(`add_row_content` with `is_separator=True`, carrying its bold flag) or a
two-column row (`add_split_content` with speaker and content cells). -/
inductive Row where
  | sep (text : List Char) (bold : Bool)
  | twoCol (speaker : List Char) (content : List Char)
deriving DecidableEq

/-- `MAX_LINE_LENGTH = 90` (line 128). -/
def MAX_LINE_LENGTH : Nat := 90

/-- `f"{n:02d}"`: decimal digits, left-padded with `0` to width two. -/
def pad2 (n : Nat) : List Char :=
  if n < 10 then '0' :: Nat.toDigits 10 n else Nat.toDigits 10 n

/-- The bold segment-header text of lines 153-157:
`f"{timecode}" + " " * spacing + f" {segment_count:02d}"` with
`spacing = separator_length - len(timecode) - 2 + 26`. -/
def markerHeader (sepLen : Nat) (tc : List Char) (n : Nat) : List Char :=
  tc ++ List.replicate ((sepLen : Int) - tc.length - 2 + 26).toNat ' '
    ++ ' ' :: pad2 n

/-- The mutable loop state of lines 134-135. -/
structure PState where
  segment_count : Nat
  skip_pages : Bool
deriving DecidableEq

/-- Lines 170-194: classify the (timecode-stripped) line as a speaker line or
a plain line and produce the table rows added for it. -/
def speakerPlainRows (text : List Char) : List Row :=
  if speakerMatch text then
    let words := splitWs text
    let speaker := match words with
      | [] => []
      | w :: _ => rstripColon w
    let content := pyStrip (joinWords (words.drop 1))
    if content ≠ [] then
      let lines := split_text_into_lines content MAX_LINE_LENGTH
      Row.twoCol speaker (lines.headD []) ::
        (lines.drop 1).map (fun l => Row.twoCol [] l)
    else [Row.twoCol speaker []]
  else if text ≠ [] then [Row.twoCol [] text] else []

/-- One iteration of the paragraph loop (lines 137-194): strip the paragraph
text; while `skip_pages` is set, skip lines until a segment marker; emit a
separator row and a bold header row for segment markers; otherwise remove a
leading timecode and process the line as speaker or plain content.
`sepLen` is `separator_length`, computed on lines 106-107 from the page
geometry supplied by the document library. -/
def processPara (sepLen : Nat) (st : PState) (raw : List Char) : PState × List Row :=
  let text := pyStrip raw
  if st.skip_pages && !markerCond text then (st, [])
  else if markerCond text then
    let tc := (tcSearchFind false text).getD []
    (⟨st.segment_count + 1, false⟩,
      [Row.sep (List.replicate sepLen '-') false,
       Row.sep (markerHeader sepLen tc (st.segment_count + 1)) true])
  else (st, speakerPlainRows (tcRemove text))

/-- Run the paragraph loop over the whole document, returning the final state
and all rows added to the table. -/
def runParas (sepLen : Nat) (st : PState) : List (List Char) → PState × List Row
  | [] => (st, [])
  | p :: ps =>
    let out := processPara sepLen st p
    let rest := runParas sepLen out.fst ps
    (rest.fst, out.snd ++ rest.snd)

/-- The initial loop state: `segment_count = 0`, `skip_pages = True`. -/
def initState : PState := ⟨0, true⟩

/-- The literal `".docx"`. -/
def dotDocx : List Char := ['.', 'd', 'o', 'c', 'x']

/-- Line 197: `output_file if output_file.endswith('.docx') else output_file + '.docx'`. -/
def fixDocxName (output_file : List Char) : List Char :=
  if dotDocx.isSuffixOf output_file then output_file else output_file ++ dotDocx

/-- The saved output document: the path it was saved under (also the return
value of `process_docx`) and the rows of its table. -/
structure SaveResult where
  path : List Char
  rows : List Row
deriving DecidableEq

/-- `process_docx(input_file, output_file)` (lines 84-203).  File I/O is
external: `inputExists` models `os.path.exists(input_file)`, `paragraphs`
models the paragraph texts of `Document(input_file)`, and `sepLen` models
`separator_length` derived from the page geometry.  Raising
`FileNotFoundError` is modelled as `Except.error ()`; saving and returning
the output path as `Except.ok`. -/
def process_docx (inputExists : Bool) (paragraphs : List (List Char))
    (sepLen : Nat) (output_file : List Char) : Except Unit SaveResult :=
  if !inputExists then Except.error ()
  else Except.ok ⟨fixDocxName output_file, (runParas sepLen initState paragraphs).snd⟩

/-! ### Character-class facts -/

lemma pyWs_cases {c : Char} (h : pyWs c = true) :
    c = ' ' ∨ c = '\t' ∨ c = '\n' ∨ c = '\r' ∨ c = '\x0b' ∨ c = '\x0c' := by
  simp [pyWs] at h
  tauto

lemma not_isAZ_of_pyWs {c : Char} (h : pyWs c = true) : isAZ c = false := by
  rcases pyWs_cases h with h | h | h | h | h | h <;> subst h <;> decide

lemma ne_colon_of_pyWs {c : Char} (h : pyWs c = true) : c ≠ ':' := by
  rcases pyWs_cases h with h | h | h | h | h | h <;> subst h <;> decide

lemma not_pyWs_of_isAZ {c : Char} (h : isAZ c = true) : pyWs c = false := by
  cases hpw : pyWs c
  · rfl
  · rcases pyWs_cases hpw with h' | h' | h' | h' | h' | h' <;> subst h' <;>
      exact absurd h (by decide)

/-! ### Library-glue lemmas -/

lemma isPrefixOf_iff (p s : List Char) : p.isPrefixOf s = true ↔ p <+: s :=
  List.isPrefixOf_iff_prefix

lemma mem_of_getLast? {l : List Char} {a : Char} (h : l.getLast? = some a) : a ∈ l := by
  rw [← List.head?_reverse l] at h
  simpa using List.mem_of_mem_head? h

lemma head?_dropWhile {p : Char → Bool} :
    ∀ (l : List Char) (c : Char), (l.dropWhile p).head? = some c → p c = false := by
  intro l
  induction l with
  | nil => intro c h; simp at h
  | cons a t ih =>
    intro c h
    rw [List.dropWhile_cons] at h
    split at h
    · exact ih c h
    · next hp =>
      simp at h
      subst h
      simpa using hp

/-! ### Properties of `splitWs`, `joinWords` and `pyStrip` -/

lemma splitWsAux_nil (acc : List Char) :
    splitWsAux [] acc = if acc = [] then [] else [acc.reverse] := rfl

lemma splitWsAux_cons (c : Char) (cs acc : List Char) :
    splitWsAux (c :: cs) acc =
      if pyWs c then
        if acc = [] then splitWsAux cs [] else acc.reverse :: splitWsAux cs []
      else splitWsAux cs (c :: acc) := rfl

lemma splitWsAux_mem : ∀ (s acc : List Char), (∀ c ∈ acc, pyWs c = false) →
    ∀ w ∈ splitWsAux s acc, w ≠ [] ∧ ∀ c ∈ w, pyWs c = false := by
  intro s
  induction s with
  | nil =>
    intro acc hacc w hw
    rw [splitWsAux_nil] at hw
    split at hw
    · simp at hw
    · next hne =>
      simp at hw
      subst hw
      refine ⟨by simpa using hne, ?_⟩
      intro c hc
      exact hacc c (List.mem_reverse.mp hc)
  | cons a t ih =>
    intro acc hacc w hw
    rw [splitWsAux_cons] at hw
    split at hw
    · split at hw
      · exact ih [] (by simp) w hw
      · next hne =>
        rcases List.mem_cons.mp hw with h | h
        · subst h
          exact ⟨by simpa using hne, fun c hc => hacc c (List.mem_reverse.mp hc)⟩
        · exact ih [] (by simp) w h
    · next hnws =>
      refine ih (a :: acc) ?_ w hw
      intro c hc
      rcases List.mem_cons.mp hc with h | h
      · subst h; simpa using hnws
      · exact hacc c h

lemma splitWs_mem {s : List Char} : ∀ w ∈ splitWs s, w ≠ [] ∧ ∀ c ∈ w, pyWs c = false :=
  splitWsAux_mem s [] (by simp)

lemma splitWsAux_append_nonws :
    ∀ (w : List Char), (∀ c ∈ w, pyWs c = false) →
      ∀ (s acc : List Char), splitWsAux (w ++ s) acc = splitWsAux s (w.reverse ++ acc) := by
  intro w
  induction w with
  | nil => intro _ s acc; simp
  | cons a t ih =>
    intro hw s acc
    have ha : pyWs a = false := hw a (List.mem_cons_self a t)
    rw [List.cons_append, splitWsAux_cons, ha]
    simp only [Bool.false_eq_true, if_false]
    rw [ih (fun c hc => hw c (List.mem_cons_of_mem a hc)) s (a :: acc)]
    simp [List.append_assoc]

lemma splitWs_word_ws {w : List Char} (hne : w ≠ []) (hwf : ∀ c ∈ w, pyWs c = false)
    {c : Char} (hc : pyWs c = true) (t : List Char) :
    splitWs (w ++ c :: t) = w :: splitWs t := by
  unfold splitWs
  rw [splitWsAux_append_nonws w hwf (c :: t) [], splitWsAux_cons, hc]
  simp [hne]

lemma splitWs_word_nil {w : List Char} (hne : w ≠ []) (hwf : ∀ c ∈ w, pyWs c = false) :
    splitWs w = [w] := by
  unfold splitWs
  have h := splitWsAux_append_nonws w hwf [] []
  rw [List.append_nil] at h
  rw [h, splitWsAux_nil]
  simp [hne]

lemma splitWs_ws_cons {c : Char} (hc : pyWs c = true) (t : List Char) :
    splitWs (c :: t) = splitWs t := by
  unfold splitWs
  rw [splitWsAux_cons, hc]
  simp

lemma joinWords_cons_cons (w v : List Char) (r : List (List Char)) :
    joinWords (w :: v :: r) = w ++ ' ' :: joinWords (v :: r) := rfl

lemma splitWs_joinWords : ∀ (ws : List (List Char)),
    (∀ w ∈ ws, w ≠ [] ∧ ∀ c ∈ w, pyWs c = false) → splitWs (joinWords ws) = ws := by
  intro ws
  induction ws with
  | nil => intro _; rfl
  | cons w rest ih =>
    intro h
    have hw := h w (by simp)
    cases rest with
    | nil => simpa [joinWords] using splitWs_word_nil hw.1 hw.2
    | cons v r =>
      rw [joinWords_cons_cons,
        splitWs_word_ws hw.1 hw.2 (by decide : pyWs ' ' = true) (joinWords (v :: r)),
        ih (fun x hx => h x (by simp [hx]))]

lemma splitWsAux_ne_nil_of_acc : ∀ (s acc : List Char), acc ≠ [] → splitWsAux s acc ≠ [] := by
  intro s
  induction s with
  | nil => intro acc h; rw [splitWsAux_nil]; simp [h]
  | cons a t ih =>
    intro acc h
    rw [splitWsAux_cons]
    split
    · simp [h]
    · exact ih (a :: acc) (by simp)

lemma splitWs_ne_nil : ∀ (s : List Char), (∃ c ∈ s, pyWs c = false) → splitWs s ≠ [] := by
  intro s
  induction s with
  | nil => rintro ⟨c, hc, _⟩; simp at hc
  | cons a t ih =>
    rintro ⟨c, hc, hcw⟩
    unfold splitWs
    rw [splitWsAux_cons]
    split
    · next hpa =>
      simp only [if_pos rfl]
      have hct : c ∈ t := by
        rcases List.mem_cons.mp hc with h | h
        · subst h; rw [hcw] at hpa; cases hpa
        · exact h
      exact ih ⟨c, hct, hcw⟩
    · exact splitWsAux_ne_nil_of_acc t [a] (by simp)

lemma joinWords_eq_nil {ws : List (List Char)} (h : ∀ w ∈ ws, w ≠ []) :
    joinWords ws = [] ↔ ws = [] := by
  cases ws with
  | nil => simp [joinWords]
  | cons w rest =>
    cases rest with
    | nil => simp [joinWords, h w (by simp)]
    | cons v r => simp [joinWords_cons_cons]

lemma joinWords_edges : ∀ (ws : List (List Char)), ws ≠ [] →
    (∀ w ∈ ws, w ≠ [] ∧ ∀ c ∈ w, pyWs c = false) →
    joinWords ws ≠ [] ∧
      (∀ c, (joinWords ws).head? = some c → pyWs c = false) ∧
      (∀ c, (joinWords ws).getLast? = some c → pyWs c = false) := by
  intro ws
  induction ws with
  | nil => intro h; cases h rfl
  | cons w rest ih =>
    intro _ h
    have hw := h w (by simp)
    cases rest with
    | nil =>
      refine ⟨hw.1, ?_, ?_⟩
      · intro c hc
        exact hw.2 c (List.mem_of_mem_head? (show w.head? = some c from hc))
      · intro c hc
        exact hw.2 c (mem_of_getLast? (show w.getLast? = some c from hc))
    | cons v r =>
      have ihr := ih (by simp) (fun x hx => h x (by simp [hx]))
      rw [joinWords_cons_cons]
      refine ⟨by simp, ?_, ?_⟩
      · intro c hc
        rcases hww : w with _ | ⟨a, u⟩
        · exact absurd hww hw.1
        · rw [hww] at hc
          simp at hc
          subst hc
          exact hw.2 _ (by rw [hww]; exact List.mem_cons_self _ _)
      · intro c hc
        rw [List.getLast?_append_of_ne_nil w (by simp)] at hc
        rw [show (' ' :: joinWords (v :: r)) = [' '] ++ joinWords (v :: r) from rfl,
          List.getLast?_append_of_ne_nil [' '] ihr.1] at hc
        exact ihr.2.2 c hc

lemma pyStrip_noop {s : List Char}
    (h1 : ∀ c, s.head? = some c → pyWs c = false)
    (h2 : ∀ c, s.getLast? = some c → pyWs c = false) :
    pyStrip s = s := by
  unfold pyStrip
  have hd : s.dropWhile pyWs = s := by
    cases s with
    | nil => rfl
    | cons a t => rw [List.dropWhile_cons, h1 a rfl]; simp
  rw [hd]
  have hrev : s.reverse.dropWhile pyWs = s.reverse := by
    cases hr : s.reverse with
    | nil => rfl
    | cons d u =>
      have hgl : s.getLast? = some d := by
        rw [← List.head?_reverse s, hr]; rfl
      rw [List.dropWhile_cons, h2 d hgl]; simp
  rw [hrev, List.reverse_reverse]

lemma pyStrip_head? {s : List Char} {c : Char} (h : (pyStrip s).head? = some c) :
    pyWs c = false := by
  unfold pyStrip at h
  obtain ⟨v, hv⟩ := List.dropWhile_suffix (l := (s.dropWhile pyWs).reverse) pyWs
  cases hru : ((s.dropWhile pyWs).reverse.dropWhile pyWs).reverse with
  | nil => rw [hru] at h; simp at h
  | cons d r =>
    rw [hru] at h
    simp at h
    subst h
    have ht : s.dropWhile pyWs =
        ((s.dropWhile pyWs).reverse.dropWhile pyWs).reverse ++ v.reverse := by
      have hv' := congrArg List.reverse hv
      simpa [List.reverse_append] using hv'.symm
    have htd : (s.dropWhile pyWs).head? = some d := by
      rw [ht, hru]; rfl
    exact head?_dropWhile s d htd

lemma pyStrip_getLast? {s : List Char} {c : Char} (h : (pyStrip s).getLast? = some c) :
    pyWs c = false := by
  unfold pyStrip at h
  rw [List.getLast?_reverse] at h
  exact head?_dropWhile _ c h

/-! ### Properties of the line-wrapping loop -/

lemma joinWords_snoc : ∀ (ws : List (List Char)) (w : List Char), ws ≠ [] →
    joinWords (ws ++ [w]) = joinWords ws ++ ' ' :: w := by
  intro ws
  induction ws with
  | nil => intro w h; cases h rfl
  | cons v rest ih =>
    intro w _
    cases rest with
    | nil => rfl
    | cons x r =>
      rw [List.cons_append, List.cons_append, joinWords_cons_cons,
        show (x :: (r ++ [w])) = (x :: r) ++ [w] from rfl, ih w (by simp),
        joinWords_cons_cons]
      simp

lemma joinWords_snoc_length (ws : List (List Char)) (w : List Char) :
    (joinWords (ws ++ [w])).length =
      if ws = [] then w.length else (joinWords ws).length + 1 + w.length := by
  cases hws : ws with
  | nil => simp [joinWords]
  | cons v r =>
    rw [← hws, joinWords_snoc ws w (by rw [hws]; simp), if_neg (by rw [hws]; simp)]
    simp
    omega

lemma stil_loop_bound (M : Nat) :
    ∀ (ws lines cur : List (List Char)) (curLen : Nat),
      (∀ w ∈ ws, w ≠ [] ∧ w.length ≤ M) →
      (∀ w ∈ cur, w ≠ []) →
      curLen = (joinWords cur).length →
      curLen ≤ M →
      (∀ l ∈ lines, l.length ≤ M) →
      ∀ l ∈ stil_loop M ws lines cur curLen, l.length ≤ M := by
  intro ws
  induction ws with
  | nil =>
    intro lines cur curLen _ _ hlen hle hlines l hl
    unfold stil_loop at hl
    split at hl
    · exact hlines l hl
    · rcases List.mem_append.mp hl with h | h
      · exact hlines l h
      · simp at h
        subst h
        rw [← hlen]
        exact hle
  | cons w rest ih =>
    intro lines cur curLen hws hcur hlen hle hlines l hl
    have hw := hws w (by simp)
    have hrest : ∀ x ∈ rest, x ≠ [] ∧ x.length ≤ M := fun x hx => hws x (by simp [hx])
    unfold stil_loop at hl
    by_cases hcond : curLen + w.length + (if curLen > 0 then 1 else 0) ≤ M
    · rw [if_pos hcond] at hl
      refine ih lines (cur ++ [w]) _ hrest ?_ ?_ hcond hlines l hl
      · intro x hx
        rcases List.mem_append.mp hx with h | h
        · exact hcur x h
        · simp at h; subst h; exact hw.1
      · rw [joinWords_snoc_length]
        by_cases hc : cur = []
        · subst hc
          simp only [joinWords, List.length_nil] at hlen
          simp [hlen]
        · rw [if_neg hc, ← hlen]
          have hpos : curLen > 0 := by
            rw [hlen]
            have hne : joinWords cur ≠ [] := by
              rw [Ne, joinWords_eq_nil hcur]; exact hc
            cases hj : joinWords cur with
            | nil => exact absurd hj hne
            | cons _ _ => simp
          rw [if_pos hpos]
          omega
    · rw [if_neg hcond] at hl
      refine ih _ [w] w.length hrest ?_ (by simp [joinWords]) hw.2 ?_ l hl
      · intro x hx; simp at hx; subst hx; exact hw.1
      · intro x hx
        by_cases hc : cur = []
        · rw [if_pos hc] at hx
          exact hlines x hx
        · rw [if_neg hc] at hx
          rcases List.mem_append.mp hx with h | h
          · exact hlines x h
          · simp at h; subst h
            rw [← hlen]
            exact hle

lemma stil_loop_join (M : Nat) :
    ∀ (ws lines cur : List (List Char)) (curLen : Nat),
      (∀ w ∈ ws, w ≠ [] ∧ ∀ c ∈ w, pyWs c = false) →
      (∀ w ∈ cur, w ≠ [] ∧ ∀ c ∈ w, pyWs c = false) →
      ((stil_loop M ws lines cur curLen).map splitWs).flatten =
        (lines.map splitWs).flatten ++ cur ++ ws := by
  intro ws
  induction ws with
  | nil =>
    intro lines cur curLen _ hcur
    unfold stil_loop
    split
    · next hc => simp [hc]
    · simp [splitWs_joinWords cur hcur]
  | cons w rest ih =>
    intro lines cur curLen hws hcur
    have hrest : ∀ x ∈ rest, x ≠ [] ∧ ∀ c ∈ x, pyWs c = false :=
      fun x hx => hws x (by simp [hx])
    have hsnoc : ∀ x ∈ cur ++ [w], x ≠ [] ∧ ∀ c ∈ x, pyWs c = false := by
      intro x hx
      rcases List.mem_append.mp hx with h | h
      · exact hcur x h
      · simp at h; rw [h]; exact hws w (by simp)
    have hsing : ∀ x ∈ [w], x ≠ [] ∧ ∀ c ∈ x, pyWs c = false := by
      intro x hx; simp at hx; rw [hx]; exact hws w (by simp)
    unfold stil_loop
    by_cases hcond : curLen + w.length + (if curLen > 0 then 1 else 0) ≤ M
    · rw [if_pos hcond,
        ih lines (cur ++ [w]) (curLen + w.length + (if curLen > 0 then 1 else 0)) hrest hsnoc]
      simp
    · rw [if_neg hcond, ih _ [w] w.length hrest hsing]
      by_cases hc : cur = []
      · rw [if_pos hc]
        simp [hc]
      · rw [if_neg hc]
        simp [splitWs_joinWords cur hcur]

lemma stil_loop_ne_nil (M : Nat) :
    ∀ (ws lines cur : List (List Char)) (curLen : Nat),
      lines ≠ [] ∨ cur ≠ [] ∨ ws ≠ [] →
      stil_loop M ws lines cur curLen ≠ [] := by
  intro ws
  induction ws with
  | nil =>
    intro lines cur curLen h
    unfold stil_loop
    split
    · next hc =>
      rcases h with h | h | h
      · exact h
      · exact absurd hc h
      · exact absurd rfl h
    · intro he
      rcases List.append_eq_nil.mp he with ⟨_, h2⟩
      cases h2
  | cons w rest ih =>
    intro lines cur curLen _
    unfold stil_loop
    by_cases hcond : curLen + w.length + (if curLen > 0 then 1 else 0) ≤ M
    · rw [if_pos hcond]
      exact ih lines (cur ++ [w]) _ (Or.inr (Or.inl (by simp)))
    · rw [if_neg hcond]
      exact ih _ [w] w.length (Or.inr (Or.inl (by simp)))

/-- Claim C1: for every input text and every positive `max_length` such that
each whitespace-separated word of the text has length at most `max_length`,
every line returned by `split_text_into_lines(text, max_length)` has length
at most `max_length`. -/
theorem claim_C1 (text : List Char) (maxLength : Nat) (hpos : 0 < maxLength)
    (hwords : ∀ w ∈ splitWs text, w.length ≤ maxLength) :
    ∀ l ∈ split_text_into_lines text maxLength, l.length ≤ maxLength := by
  unfold split_text_into_lines
  exact stil_loop_bound maxLength (splitWs text) [] [] 0
    (fun w hw => ⟨(splitWs_mem w hw).1, hwords w hw⟩) (by simp) (by simp [joinWords])
    (Nat.zero_le maxLength) (by simp)

/-- Witness for C1: text `"ab cd"`, `max_length = 2`. -/
theorem claim_C1_witness :
    0 < 2 ∧ (∀ w ∈ splitWs ['a', 'b', ' ', 'c', 'd'], w.length ≤ 2) ∧
      ∀ l ∈ split_text_into_lines ['a', 'b', ' ', 'c', 'd'] 2, l.length ≤ 2 :=
  ⟨by decide, by decide, claim_C1 ['a', 'b', ' ', 'c', 'd'] 2 (by decide) (by decide)⟩

/-- Claim C2: splitting each wrapped line on whitespace and concatenating the
word lists, in order, yields exactly `text.split()`: line wrapping loses,
duplicates and reorders no word, for every text and every `max_length`. -/
theorem claim_C2 (text : List Char) (maxLength : Nat) :
    ((split_text_into_lines text maxLength).map splitWs).flatten = splitWs text := by
  unfold split_text_into_lines
  rw [stil_loop_join maxLength (splitWs text) [] [] 0 (fun w hw => splitWs_mem w hw) (by simp)]
  simp

/-- Claim C8: for every text containing a non-whitespace character and every
`max_length`, `split_text_into_lines` returns a non-empty list, so the
`lines[0]` access in the speaker branch never indexes an empty list. -/
theorem claim_C8 (text : List Char) (maxLength : Nat)
    (h : ∃ c ∈ text, pyWs c = false) :
    split_text_into_lines text maxLength ≠ [] := by
  unfold split_text_into_lines
  exact stil_loop_ne_nil maxLength (splitWs text) [] [] 0
    (Or.inr (Or.inr (splitWs_ne_nil text h)))

/-- Witness for C8: text `"hi"`, `max_length = 0`. -/
theorem claim_C8_witness :
    (∃ c ∈ ['h', 'i'], pyWs c = false) ∧ split_text_into_lines ['h', 'i'] 0 ≠ [] :=
  ⟨by decide, claim_C8 ['h', 'i'] 0 (by decide)⟩

/-- Claim C5: `process_docx` fails if and only if the input file does not
exist; on failure nothing is saved (no `SaveResult` is produced), and when the
input exists the run always succeeds — the missing-file check is the only
error handling.  The filesystem is modelled by the `inputExists` flag. -/
theorem claim_C5 (inputExists : Bool) (paragraphs : List (List Char)) (sepLen : Nat)
    (output_file : List Char) :
    (process_docx inputExists paragraphs sepLen output_file = Except.error () ↔
      inputExists = false)
    ∧ (inputExists = false → ∀ r : SaveResult,
        process_docx inputExists paragraphs sepLen output_file ≠ Except.ok r)
    ∧ (inputExists = true → ∃ r : SaveResult,
        process_docx inputExists paragraphs sepLen output_file = Except.ok r) := by
  cases inputExists
  · exact ⟨by simp [process_docx], fun _ r => by simp [process_docx], by simp⟩
  · exact ⟨by simp [process_docx], by simp, fun _ => ⟨_, rfl⟩⟩

/-- Witness for C5 at a missing and at an existing input file. -/
theorem claim_C5_witness :
    (process_docx false [] 5 ['o'] = Except.error () ↔ false = false) ∧
      ∃ r : SaveResult, process_docx true [] 5 ['o'] = Except.ok r :=
  ⟨(claim_C5 false [] 5 ['o']).1, (claim_C5 true [] 5 ['o']).2.2 rfl⟩

/-- Claim C10: the output is saved to `output_file` when it already ends in
`".docx"` and to `output_file ++ ".docx"` otherwise; the returned value is
exactly the saved path, and it always ends in `".docx"`. -/
theorem claim_C10 (paragraphs : List (List Char)) (sepLen : Nat) (output_file : List Char) :
    ∃ r : SaveResult,
      process_docx true paragraphs sepLen output_file = Except.ok r ∧
      r.path = (if dotDocx.isSuffixOf output_file then output_file
                else output_file ++ dotDocx) ∧
      dotDocx <:+ r.path := by
  refine ⟨⟨fixDocxName output_file, (runParas sepLen initState paragraphs).snd⟩, rfl, rfl, ?_⟩
  show dotDocx <:+ fixDocxName output_file
  unfold fixDocxName
  by_cases h : dotDocx.isSuffixOf output_file = true
  · rw [if_pos h]
    exact List.isSuffixOf_iff_suffix.mp h
  · rw [if_neg h]
    exact List.suffix_append output_file dotDocx

/-! ### Declarative characterisation of the timecode regex -/

/-- A timecode token, as the glossary describes it: one or two digits, a
colon, and two digits, optionally followed by a colon and two more digits. -/
def TimecodeShape (t : List Char) : Prop :=
  (∃ a b c, t = [a, ':', b, c] ∧
    isDigit a = true ∧ isDigit b = true ∧ isDigit c = true) ∨
  (∃ a a' b c, t = [a, a', ':', b, c] ∧
    isDigit a = true ∧ isDigit a' = true ∧ isDigit b = true ∧ isDigit c = true) ∨
  (∃ a b c d e, t = [a, ':', b, c, ':', d, e] ∧
    isDigit a = true ∧ isDigit b = true ∧ isDigit c = true ∧
    isDigit d = true ∧ isDigit e = true) ∨
  (∃ a a' b c d e, t = [a, a', ':', b, c, ':', d, e] ∧
    isDigit a = true ∧ isDigit a' = true ∧ isDigit b = true ∧ isDigit c = true ∧
    isDigit d = true ∧ isDigit e = true)

/-- The string begins with a timecode token, closed by a word boundary. -/
def BeginsTimecodeToken (s : List Char) : Prop :=
  ∃ t post, s = t ++ post ∧ TimecodeShape t ∧ boundaryAfter post = true

/-- The string contains a timecode token, with word boundaries on both
sides. -/
def ContainsTimecodeToken (s : List Char) : Prop :=
  ∃ pre t post, s = pre ++ t ++ post ∧ TimecodeShape t ∧ boundaryAfter post = true ∧
    ∀ c, pre.getLast? = some c → isWordChar c = false

lemma timecodeShape_ne_nil {t : List Char} (h : TimecodeShape t) : t ≠ [] := by
  rcases h with ⟨a, b, c, ht, _⟩ | ⟨a, a', b, c, ht, _⟩ |
    ⟨a, b, c, d, e, ht, _⟩ | ⟨a, a', b, c, d, e, ht, _⟩ <;> subst ht <;> simp

lemma tcTail_sound : ∀ (r t : List Char), tcTail r = some t →
    ∃ post, r = t ++ post ∧ boundaryAfter post = true ∧
      ((∃ a b, t = [a, b] ∧ isDigit a = true ∧ isDigit b = true) ∨
       (∃ a b d e, t = [a, b, ':', d, e] ∧ isDigit a = true ∧ isDigit b = true ∧
         isDigit d = true ∧ isDigit e = true)) := by
  intro r t h
  rcases r with _ | ⟨m1, _ | ⟨m2, rest⟩⟩
  · simp [tcTail] at h
  · simp [tcTail] at h
  · simp only [tcTail] at h
    split at h
    · next hd =>
      rw [Bool.and_eq_true] at hd
      split at h
      · next s1 s2 rest2 =>
        split at h
        · next hcond =>
          simp only [Option.some.injEq] at h
          subst h
          rw [Bool.and_eq_true, Bool.and_eq_true] at hcond
          exact ⟨rest2, by simp, hcond.2,
            Or.inr ⟨m1, m2, s1, s2, rfl, hd.1, hd.2, hcond.1.1, hcond.1.2⟩⟩
        · split at h
          · next hb =>
            simp only [Option.some.injEq] at h
            subst h
            exact ⟨':' :: s1 :: s2 :: rest2, by simp, hb,
              Or.inl ⟨m1, m2, rfl, hd.1, hd.2⟩⟩
          · cases h
      · split at h
        · next hb =>
          simp only [Option.some.injEq] at h
          subst h
          exact ⟨rest, by simp, hb, Or.inl ⟨m1, m2, rfl, hd.1, hd.2⟩⟩
        · cases h
    · cases h

lemma tcMatch_sound : ∀ (s tc : List Char), tcMatch s = some tc →
    ∃ post, s = tc ++ post ∧ TimecodeShape tc ∧ boundaryAfter post = true := by
  intro s tc h
  rcases s with _ | ⟨c1, _ | ⟨c2, rest⟩⟩
  · simp [tcMatch] at h
  · simp [tcMatch] at h
  · by_cases h1 : isDigit c1 = true
    · by_cases h2 : isDigit c2 = true
      · rcases rest with _ | ⟨r0, r⟩
        · simp [tcMatch, h1, h2] at h
        · by_cases hr0 : r0 = ':'
          · subst hr0
            simp only [tcMatch, h1, h2, if_true] at h
            cases ho : tcTail r with
            | none => rw [ho] at h; cases h
            | some t' =>
              rw [ho] at h
              simp only [Option.map_some', Option.some.injEq] at h
              obtain ⟨post, hpost, hb, hsh⟩ := tcTail_sound r t' ho
              subst h
              rw [hpost]
              rcases hsh with ⟨a, b, ht, ha, hb'⟩ | ⟨a, b, d, e, ht, ha, hb', hd', he'⟩
              · subst ht
                exact ⟨post, by simp,
                  Or.inr (Or.inl ⟨c1, c2, a, b, rfl, h1, h2, ha, hb'⟩), hb⟩
              · subst ht
                exact ⟨post, by simp,
                  Or.inr (Or.inr (Or.inr
                    ⟨c1, c2, a, b, d, e, rfl, h1, h2, ha, hb', hd', he'⟩)), hb⟩
          · simp only [tcMatch, h1, h2, if_true] at h
            split at h
            · next heq => exact absurd (List.cons.injEq .. ▸ congrArg id heq) (by simp [hr0])
            · cases h
      · have h2' : isDigit c2 = false := by simpa using h2
        by_cases h2c : c2 = ':'
        · subst h2c
          simp only [tcMatch, h1, h2', if_true, Bool.false_eq_true, if_false, if_pos rfl] at h
          cases ho : tcTail rest with
          | none => rw [ho] at h; cases h
          | some t' =>
            rw [ho] at h
            simp only [Option.map_some', Option.some.injEq] at h
            obtain ⟨post, hpost, hb, hsh⟩ := tcTail_sound rest t' ho
            subst h
            rw [hpost]
            rcases hsh with ⟨a, b, ht, ha, hb'⟩ | ⟨a, b, d, e, ht, ha, hb', hd', he'⟩
            · subst ht
              exact ⟨post, by simp, Or.inl ⟨c1, a, b, rfl, h1, ha, hb'⟩, hb⟩
            · subst ht
              exact ⟨post, by simp,
                Or.inr (Or.inr (Or.inl ⟨c1, a, b, d, e, rfl, h1, ha, hb', hd', he'⟩)), hb⟩
        · simp [tcMatch, h1, h2', h2c] at h
    · have h1' : isDigit c1 = false := by simpa using h1
      simp [tcMatch, h1'] at h

lemma tcTail_complete_pair {b c : Char} (hb : isDigit b = true) (hc : isDigit c = true)
    (post : List Char) (hpost : boundaryAfter post = true) :
    (tcTail (b :: c :: post)).isSome = true := by
  simp only [tcTail, hb, hc, Bool.and_self, if_true]
  split
  · next s1 s2 rest2 =>
    by_cases hcond : (isDigit s1 && isDigit s2 && boundaryAfter rest2) = true
    · rw [if_pos hcond]; rfl
    · rw [if_neg hcond, if_pos (by simp [boundaryAfter, isWordChar, isDigit, isAZ])]; rfl
  · rw [if_pos hpost]; rfl

lemma tcTail_complete_five {b c d e : Char} (hb : isDigit b = true) (hc : isDigit c = true)
    (hd : isDigit d = true) (he : isDigit e = true)
    (post : List Char) (hpost : boundaryAfter post = true) :
    tcTail (b :: c :: ':' :: d :: e :: post) = some [b, c, ':', d, e] := by
  simp only [tcTail, hb, hc, hd, he, hpost, Bool.and_self, if_true]

lemma tcMatch_complete {t post : List Char} (hsh : TimecodeShape t)
    (hpost : boundaryAfter post = true) : (tcMatch (t ++ post)).isSome = true := by
  have hcolon : isDigit ':' = false := by decide
  rcases hsh with ⟨a, b, c, ht, ha, hb, hc⟩ | ⟨a, a', b, c, ht, ha, ha', hb, hc⟩ |
    ⟨a, b, c, d, e, ht, ha, hb, hc, hd, he⟩ | ⟨a, a', b, c, d, e, ht, ha, ha', hb, hc, hd, he⟩
  · subst ht
    show (tcMatch (a :: ':' :: (b :: c :: post))).isSome = true
    simp only [tcMatch, ha, hcolon, Bool.false_eq_true, if_false, if_true, if_pos rfl]
    rw [Option.isSome_map']
    exact tcTail_complete_pair hb hc post hpost
  · subst ht
    show (tcMatch (a :: a' :: (':' :: (b :: c :: post)))).isSome = true
    simp only [tcMatch, ha, ha', if_true]
    rw [Option.isSome_map']
    exact tcTail_complete_pair hb hc post hpost
  · subst ht
    show (tcMatch (a :: ':' :: (b :: c :: ':' :: d :: e :: post))).isSome = true
    simp only [tcMatch, ha, hcolon, Bool.false_eq_true, if_false, if_true, if_pos rfl]
    rw [Option.isSome_map']
    rw [tcTail_complete_five hb hc hd he post hpost]
    rfl
  · subst ht
    show (tcMatch (a :: a' :: (':' :: (b :: c :: ':' :: d :: e :: post)))).isSome = true
    simp only [tcMatch, ha, ha', if_true]
    rw [Option.isSome_map']
    rw [tcTail_complete_five hb hc hd he post hpost]
    rfl

lemma tcMatch_isSome_iff (s : List Char) :
    (tcMatch s).isSome = true ↔ BeginsTimecodeToken s := by
  constructor
  · intro h
    cases ho : tcMatch s with
    | none => rw [ho] at h; cases h
    | some tc =>
      obtain ⟨post, hpost, hsh, hb⟩ := tcMatch_sound s tc ho
      exact ⟨tc, post, hpost, hsh, hb⟩
  · rintro ⟨t, post, rfl, hsh, hb⟩
    exact tcMatch_complete hsh hb

lemma tcSearchFind_sound : ∀ (s : List Char) (prevW : Bool) (tc : List Char),
    tcSearchFind prevW s = some tc →
    ∃ pre post, s = pre ++ tc ++ post ∧ TimecodeShape tc ∧ boundaryAfter post = true ∧
      (∀ c, pre.getLast? = some c → isWordChar c = false) ∧ (pre = [] → prevW = false) := by
  intro s
  induction s with
  | nil => intro prevW tc h; simp [tcSearchFind] at h
  | cons a cs ih =>
    intro prevW tc h
    simp only [tcSearchFind] at h
    cases hfirst : (if prevW = true then none else tcMatch (a :: cs)) with
    | none =>
      rw [hfirst] at h
      simp only [Option.none_orElse] at h
      obtain ⟨pre, post, heq, hsh, hb, hpre, hpw⟩ := ih (isWordChar a) tc h
      refine ⟨a :: pre, post, by simp [heq], hsh, hb, ?_, by simp⟩
      intro c hc
      cases hp : pre with
      | nil =>
        rw [hp] at hc
        simp at hc
        rw [← hc]
        exact hpw hp
      | cons p ps =>
        rw [hp] at hc
        rw [List.getLast?_cons_cons] at hc
        exact hpre c (by rw [hp]; exact hc)
    | some tc1 =>
      rw [hfirst] at h
      simp only [Option.some_orElse, Option.some.injEq] at h
      subst h
      by_cases hw : prevW = true
      · rw [if_pos hw] at hfirst; cases hfirst
      · rw [if_neg hw] at hfirst
        obtain ⟨post, hpost, hsh, hb⟩ := tcMatch_sound _ _ hfirst
        exact ⟨[], post, by simpa using hpost, hsh, hb, by simp,
          fun _ => by simpa using hw⟩

lemma orElse_isSome_right {o o' : Option (List Char)} (h : o'.isSome = true) :
    (o <|> o').isSome = true := by
  cases o with
  | none => simpa using h
  | some v => simp

lemma tcSearchFind_of_match {u : List Char} (hne : u ≠ []) (h : (tcMatch u).isSome = true) :
    (tcSearchFind false u).isSome = true := by
  rcases u with _ | ⟨c, cs⟩
  · exact absurd rfl hne
  · simp only [tcSearchFind, Bool.false_eq_true, if_false]
    cases ho : tcMatch (c :: cs) with
    | none => rw [ho] at h; cases h
    | some tc => simp

lemma tcSearchFind_complete : ∀ (pre t post : List Char) (prevW : Bool),
    TimecodeShape t → boundaryAfter post = true →
    (∀ c, pre.getLast? = some c → isWordChar c = false) →
    (pre = [] → prevW = false) →
    (tcSearchFind prevW (pre ++ t ++ post)).isSome = true := by
  intro pre
  induction pre with
  | nil =>
    intro t post prevW hsh hb _ hw
    rw [hw rfl]
    simp only [List.nil_append]
    refine tcSearchFind_of_match ?_ (tcMatch_complete hsh hb)
    have := timecodeShape_ne_nil hsh
    intro he
    rcases List.append_eq_nil.mp he with ⟨h1, _⟩
    exact this h1
  | cons a pre' ih =>
    intro t post prevW hsh hb hpre _
    simp only [List.cons_append]
    simp only [tcSearchFind]
    refine orElse_isSome_right ?_
    refine ih t post (isWordChar a) hsh hb ?_ ?_
    · intro c hc
      refine hpre c ?_
      cases hp : pre' with
      | nil => rw [hp] at hc; simp at hc
      | cons p ps =>
        rw [List.getLast?_cons_cons]
        rw [hp] at hc
        exact hc
    · intro hp
      subst hp
      exact hpre a (by simp)

lemma tcSearch_iff (s : List Char) : tcSearch s = true ↔ ContainsTimecodeToken s := by
  constructor
  · intro h
    unfold tcSearch at h
    cases ho : tcSearchFind false s with
    | none => rw [ho] at h; cases h
    | some tc =>
      obtain ⟨pre, post, heq, hsh, hb, hpre, _⟩ := tcSearchFind_sound s false tc ho
      exact ⟨pre, tc, post, heq, hsh, hb, hpre⟩
  · rintro ⟨pre, t, post, rfl, hsh, hb, hpre⟩
    unfold tcSearch
    exact tcSearchFind_complete pre t post false hsh hb hpre (fun _ => rfl)

lemma hasSubstr_iff (pat : List Char) : ∀ (s : List Char),
    hasSubstr pat s = true ↔ pat <:+: s := by
  intro s
  induction s with
  | nil =>
    show pat.isPrefixOf [] = true ↔ pat <:+: []
    rw [isPrefixOf_iff]
    simp
  | cons a t ih =>
    show (pat.isPrefixOf (a :: t) || hasSubstr pat t) = true ↔ pat <:+: a :: t
    rw [Bool.or_eq_true, isPrefixOf_iff, ih, List.infix_cons_iff]

lemma markerCond_iff (s : List Char) :
    markerCond s = true ↔ ContainsTimecodeToken s ∧ tenDashes <:+: s := by
  unfold markerCond
  rw [Bool.and_eq_true, tcSearch_iff, hasSubstr_iff]

/-! ### Branch lemmas for the paragraph loop -/

lemma processPara_skip {sepLen : Nat} {st : PState} {raw : List Char}
    (hskip : st.skip_pages = true) (hm : markerCond (pyStrip raw) = false) :
    processPara sepLen st raw = (st, []) := by
  unfold processPara
  simp [hskip, hm]

lemma processPara_marker {sepLen : Nat} {st : PState} {raw : List Char}
    (hm : markerCond (pyStrip raw) = true) :
    processPara sepLen st raw =
      (⟨st.segment_count + 1, false⟩,
        [Row.sep (List.replicate sepLen '-') false,
         Row.sep (markerHeader sepLen ((tcSearchFind false (pyStrip raw)).getD [])
           (st.segment_count + 1)) true]) := by
  unfold processPara
  simp [hm]

lemma processPara_normal {sepLen : Nat} {st : PState} {raw : List Char}
    (hskip : st.skip_pages = false) (hm : markerCond (pyStrip raw) = false) :
    processPara sepLen st raw = (st, speakerPlainRows (tcRemove (pyStrip raw))) := by
  unfold processPara
  simp [hskip, hm]

/-- Claim C3: a paragraph is treated as a segment marker (observable as the
segment counter incrementing) if and only if its stripped text contains a
timecode token and the ten-dash separator; each marker paragraph emits a
full-width dash row followed by a bold header row. -/
theorem claim_C3 (sepLen : Nat) (st : PState) (raw : List Char) :
    ((processPara sepLen st raw).fst.segment_count = st.segment_count + 1 ↔
      ContainsTimecodeToken (pyStrip raw) ∧ tenDashes <:+: pyStrip raw)
    ∧ (markerCond (pyStrip raw) = true →
        ∃ h, (processPara sepLen st raw).snd =
          [Row.sep (List.replicate sepLen '-') false, Row.sep h true]) := by
  constructor
  · rw [← markerCond_iff]
    constructor
    · intro h
      by_cases hm : markerCond (pyStrip raw) = true
      · exact hm
      · have hm' : markerCond (pyStrip raw) = false := by simpa using hm
        by_cases hskip : st.skip_pages = true
        · rw [processPara_skip hskip hm'] at h
          simp at h
        · have hskip' : st.skip_pages = false := by simpa using hskip
          rw [processPara_normal hskip' hm'] at h
          simp at h
    · intro hm
      rw [processPara_marker hm]
  · intro hm
    rw [processPara_marker hm]
    exact ⟨_, rfl⟩

/-- The sample segment-marker line `"0:00 ----------"`. -/
def sampleMarker : List Char :=
  ['0', ':', '0', '0', ' ', '-', '-', '-', '-', '-', '-', '-', '-', '-', '-']

/-- Witness for C3 at the sample marker line. -/
theorem claim_C3_witness :
    markerCond (pyStrip sampleMarker) = true ∧
      ∃ h, (processPara 12 ⟨2, true⟩ sampleMarker).snd =
        [Row.sep (List.replicate 12 '-') false, Row.sep h true] :=
  ⟨by decide, (claim_C3 12 ⟨2, true⟩ sampleMarker).2 (by decide)⟩

/-- `countMarkers paras` counts the segment-marker lines among `paras`. -/
def countMarkers (paras : List (List Char)) : Nat :=
  paras.countP (fun p => markerCond (pyStrip p))

lemma runParas_count (sepLen : Nat) :
    ∀ (paras : List (List Char)) (st : PState),
      (runParas sepLen st paras).fst.segment_count =
        st.segment_count + countMarkers paras := by
  intro paras
  induction paras with
  | nil => intro st; simp [runParas, countMarkers]
  | cons p ps ih =>
    intro st
    show (runParas sepLen (processPara sepLen st p).fst ps).fst.segment_count =
      st.segment_count + countMarkers (p :: ps)
    rw [ih ((processPara sepLen st p).fst)]
    unfold countMarkers
    rw [List.countP_cons]
    by_cases hm : markerCond (pyStrip p) = true
    · rw [processPara_marker hm]
      simp [hm, countMarkers]
      omega
    · have hm' : markerCond (pyStrip p) = false := by simpa using hm
      have hcount : (processPara sepLen st p).fst.segment_count = st.segment_count := by
        by_cases hskip : st.skip_pages = true
        · rw [processPara_skip hskip hm']
        · rw [processPara_normal (by simpa using hskip) hm']
      rw [hcount]
      simp [hm', countMarkers]

/-- Claim C7: throughout the loop the segment counter equals the number of
segment-marker lines seen so far, and a marker processed with counter value
`n - 1` emits a bold header that contains the marker's timecode and ends with
`n` formatted as a two-digit number. -/
theorem claim_C7 (sepLen : Nat) (st : PState) (paras : List (List Char)) :
    ((runParas sepLen st paras).fst.segment_count = st.segment_count + countMarkers paras)
    ∧ ∀ raw, markerCond (pyStrip raw) = true →
        ∃ tc, tcSearchFind false (pyStrip raw) = some tc ∧
          (processPara sepLen st raw).snd =
            [Row.sep (List.replicate sepLen '-') false,
             Row.sep (markerHeader sepLen tc (st.segment_count + 1)) true] ∧
          tc <:+: markerHeader sepLen tc (st.segment_count + 1) ∧
          pad2 (st.segment_count + 1) <:+ markerHeader sepLen tc (st.segment_count + 1) := by
  refine ⟨runParas_count sepLen paras st, ?_⟩
  intro raw hm
  have hs : tcSearch (pyStrip raw) = true := by
    unfold markerCond at hm
    exact (Bool.and_eq_true _ _).mp hm |>.1
  unfold tcSearch at hs
  cases ho : tcSearchFind false (pyStrip raw) with
  | none => rw [ho] at hs; cases hs
  | some tc =>
    refine ⟨tc, rfl, ?_, ?_, ?_⟩
    · rw [processPara_marker hm, ho]
      simp
    · unfold markerHeader
      rw [List.append_assoc]
      exact (List.prefix_append tc _).isInfix
    · unfold markerHeader
      rw [show (' ' :: pad2 (st.segment_count + 1)) =
          [' '] ++ pad2 (st.segment_count + 1) from rfl, ← List.append_assoc]
      exact List.suffix_append _ _

/-- Witness for C7's header property at the sample marker line. -/
theorem claim_C7_witness :
    ∃ tc, tcSearchFind false (pyStrip sampleMarker) = some tc ∧
      (processPara 9 ⟨0, true⟩ sampleMarker).snd =
        [Row.sep (List.replicate 9 '-') false,
         Row.sep (markerHeader 9 tc ((0 : Nat) + 1)) true] ∧
      tc <:+: markerHeader 9 tc ((0 : Nat) + 1) ∧
      pad2 ((0 : Nat) + 1) <:+ markerHeader 9 tc ((0 : Nat) + 1) :=
  (claim_C7 9 ⟨0, true⟩ []).2 sampleMarker (by decide)

/-! ### Declarative characterisation of the speaker pattern -/

/-- `^[A-Z]+:?\s` stated declaratively: a non-empty uppercase token, an
optional colon, then a whitespace character. -/
def SpecSpeaker (s : List Char) : Prop :=
  ∃ tok mid c rest, s = tok ++ mid ++ c :: rest ∧ tok ≠ [] ∧
    (∀ x ∈ tok, isAZ x = true) ∧ (mid = [] ∨ mid = [':']) ∧ pyWs c = true

lemma az_ne_colon {d : Char} (h : isAZ d = true) : d ≠ ':' := by
  intro he; subst he; exact absurd h (by decide)

lemma speakerRest_sound : ∀ (cs : List Char), speakerRest cs = true →
    ∃ tok mid c rest, cs = tok ++ mid ++ c :: rest ∧
      (∀ x ∈ tok, isAZ x = true) ∧ (mid = [] ∨ mid = [':']) ∧ pyWs c = true := by
  intro cs
  induction cs with
  | nil => intro h; simp [speakerRest] at h
  | cons a cs' ih =>
    intro h
    by_cases haz : isAZ a = true
    · simp only [speakerRest, haz, if_true] at h
      obtain ⟨tok, mid, c, rest, heq, htok, hmid, hc⟩ := ih h
      refine ⟨a :: tok, mid, c, rest, by simp [heq], ?_, hmid, hc⟩
      intro x hx
      rcases List.mem_cons.mp hx with hx | hx
      · subst hx; exact haz
      · exact htok x hx
    · have haz' : isAZ a = false := by simpa using haz
      by_cases hcol : a = ':'
      · subst hcol
        simp only [speakerRest, haz', Bool.false_eq_true, if_false, if_pos rfl] at h
        rcases cs' with _ | ⟨d, rest⟩
        · cases h
        · exact ⟨[], [':'], d, rest, rfl, by simp, Or.inr rfl, h⟩
      · simp only [speakerRest, haz', Bool.false_eq_true, if_false, if_neg hcol] at h
        exact ⟨[], [], a, cs', rfl, by simp, Or.inl rfl, h⟩

lemma speakerRest_complete : ∀ (tok : List Char) (mid : List Char) (c : Char)
    (rest : List Char), (∀ x ∈ tok, isAZ x = true) → (mid = [] ∨ mid = [':']) →
    pyWs c = true → speakerRest (tok ++ mid ++ c :: rest) = true := by
  intro tok
  induction tok with
  | nil =>
    intro mid c rest _ hmid hc
    rcases hmid with hm | hm
    · subst hm
      simp only [List.nil_append]
      simp only [speakerRest, not_isAZ_of_pyWs hc, Bool.false_eq_true, if_false,
        if_neg (ne_colon_of_pyWs hc)]
      exact hc
    · subst hm
      simp only [List.nil_append, List.singleton_append]
      simp only [speakerRest, if_neg, if_pos rfl]
      have : isAZ ':' = false := by decide
      rw [this]
      simp only [Bool.false_eq_true, if_false, if_pos rfl]
      exact hc
  | cons a tok' ih =>
    intro mid c rest htok hmid hc
    simp only [List.cons_append]
    simp only [speakerRest, htok a (by simp), if_true]
    exact ih mid c rest (fun x hx => htok x (by simp [hx])) hmid hc

lemma speakerMatch_iff (s : List Char) : speakerMatch s = true ↔ SpecSpeaker s := by
  constructor
  · intro h
    rcases s with _ | ⟨c0, cs⟩
    · simp [speakerMatch] at h
    · simp only [speakerMatch, Bool.and_eq_true] at h
      obtain ⟨tok, mid, c, rest, heq, htok, hmid, hc⟩ := speakerRest_sound cs h.2
      refine ⟨c0 :: tok, mid, c, rest, by simp [heq], by simp, ?_, hmid, hc⟩
      intro x hx
      rcases List.mem_cons.mp hx with hx | hx
      · subst hx; exact h.1
      · exact htok x hx
  · rintro ⟨tok, mid, c, rest, rfl, hne, haz, hmid, hc⟩
    rcases tok with _ | ⟨t0, tok'⟩
    · exact absurd rfl hne
    · simp only [List.cons_append, speakerMatch, Bool.and_eq_true]
      exact ⟨haz t0 (by simp), speakerRest_complete tok' mid c rest
        (fun x hx => haz x (by simp [hx])) hmid hc⟩

lemma splitWs_specSpeaker {tok mid : List Char} {c : Char} {rest : List Char}
    (hne : tok ≠ []) (haz : ∀ x ∈ tok, isAZ x = true) (hmid : mid = [] ∨ mid = [':'])
    (hc : pyWs c = true) :
    splitWs (tok ++ mid ++ c :: rest) = (tok ++ mid) :: splitWs rest := by
  have hwf : ∀ x ∈ tok ++ mid, pyWs x = false := by
    intro x hx
    rcases List.mem_append.mp hx with h | h
    · exact not_pyWs_of_isAZ (haz x h)
    · rcases hmid with hm | hm
      · rw [hm] at h; simp at h
      · rw [hm] at h; simp at h; subst h; decide
  exact splitWs_word_ws (by simp [hne]) hwf hc rest

lemma rstripColon_upper {tok mid : List Char}
    (haz : ∀ x ∈ tok, isAZ x = true) (hmid : mid = [] ∨ mid = [':']) :
    rstripColon (tok ++ mid) = tok := by
  have hlast : ∀ l : List Char, (∀ x ∈ l, isAZ x = true) →
      l.reverse.dropWhile (fun c => c = ':') = l.reverse := by
    intro l hl
    cases hr : l.reverse with
    | nil => rfl
    | cons d u =>
      have hd : d ∈ l := by
        have hm : d ∈ l.reverse := by rw [hr]; simp
        simpa using hm
      rw [List.dropWhile_cons, if_neg (by simpa using az_ne_colon (hl d hd))]
  rcases hmid with hm | hm
  · subst hm
    unfold rstripColon
    rw [List.append_nil, hlast tok haz, List.reverse_reverse]
  · subst hm
    unfold rstripColon
    rw [List.reverse_append]
    simp only [List.reverse_cons, List.reverse_nil, List.nil_append, List.singleton_append]
    rw [List.dropWhile_cons, if_pos (by simp)]
    rw [hlast tok haz, List.reverse_reverse]

/-! ### The speaker / plain emission behaviour -/

/-- The paragraph was emitted as a speaker line: the first output row has a
non-empty speaker cell. -/
def EmitsSpeaker (rows : List Row) : Prop :=
  ∃ sp c rest, rows = Row.twoCol sp c :: rest ∧ sp ≠ []

/-- The content cell text of a speaker line: `' '.join(words[1:]).strip()`. -/
def contentOf (s : List Char) : List Char :=
  pyStrip (joinWords ((splitWs s).drop 1))

/-- The rows a speaker line produces (lines 178-185): first wrapped content
line next to the speaker (first word minus trailing colons), the remaining
wrapped lines with an empty speaker cell. -/
def speakerRowsOf (s : List Char) : List Row :=
  Row.twoCol (rstripColon ((splitWs s).headD []))
      ((split_text_into_lines (contentOf s) MAX_LINE_LENGTH).headD []) ::
    ((split_text_into_lines (contentOf s) MAX_LINE_LENGTH).drop 1).map
      (fun l => Row.twoCol [] l)

lemma tcRemove_strip_image (raw : List Char) : ∃ x, tcRemove (pyStrip raw) = pyStrip x := by
  unfold tcRemove
  cases tcMatch (pyStrip raw) with
  | none => exact ⟨raw, rfl⟩
  | some tc => exact ⟨pyReplaceDel tc (pyStrip raw), rfl⟩

lemma speakerPlainRows_speaker {s : List Char} (himg : ∃ x, s = pyStrip x)
    (hsp : SpecSpeaker s) :
    speakerPlainRows s = speakerRowsOf s ∧ EmitsSpeaker (speakerPlainRows s) := by
  obtain ⟨tok, mid, c, rest, heq, hne, haz, hmid, hc⟩ := hsp
  have hmatch : speakerMatch s = true :=
    (speakerMatch_iff s).mpr ⟨tok, mid, c, rest, heq, hne, haz, hmid, hc⟩
  have hwords : splitWs s = (tok ++ mid) :: splitWs rest := by
    rw [heq]; exact splitWs_specSpeaker hne haz hmid hc
  -- the text is stripped, so its last character is not whitespace
  have hrest_ne : ∃ d ∈ rest, pyWs d = false := by
    obtain ⟨x, hx⟩ := himg
    rcases hlr : rest.getLast? with _ | d
    · -- rest = [] : the last character of s would be the whitespace c
      have hrnil : rest = [] := by
        cases rest with
        | nil => rfl
        | cons r0 rs => simp [List.getLast?_cons] at hlr
      subst hrnil
      have hlast : s.getLast? = some c := by
        rw [heq]
        rw [List.getLast?_append_of_ne_nil _ (by simp : c :: ([] : List Char) ≠ [])]
        rfl
      have := pyStrip_getLast? (by rw [← hx]; exact hlast)
      rw [this] at hc
      cases hc
    · have hrne : rest ≠ [] := by
        intro hre; rw [hre] at hlr; simp at hlr
      have hlast : s.getLast? = some d := by
        rw [heq]
        rw [List.getLast?_append_of_ne_nil _ (by simp : c :: rest ≠ [])]
        rw [show (c :: rest) = [c] ++ rest from rfl,
          List.getLast?_append_of_ne_nil _ hrne]
        exact hlr
      have hdw := pyStrip_getLast? (by rw [← hx]; exact hlast)
      exact ⟨d, mem_of_getLast? hlr, hdw⟩
  have hsplit_ne : splitWs rest ≠ [] := splitWs_ne_nil rest hrest_ne
  have hedges := joinWords_edges (splitWs rest) hsplit_ne (fun w hw => splitWs_mem w hw)
  have hnoop : pyStrip (joinWords (splitWs rest)) = joinWords (splitWs rest) :=
    pyStrip_noop hedges.2.1 hedges.2.2
  have hjne : joinWords (splitWs rest) ≠ [] := hedges.1
  have hrows : speakerPlainRows s =
      Row.twoCol (rstripColon (tok ++ mid))
          ((split_text_into_lines (joinWords (splitWs rest)) MAX_LINE_LENGTH).headD []) ::
        ((split_text_into_lines (joinWords (splitWs rest)) MAX_LINE_LENGTH).drop 1).map
          (fun l => Row.twoCol [] l) := by
    unfold speakerPlainRows
    rw [hmatch]
    simp only [if_true]
    rw [hwords]
    simp only [List.drop_succ_cons, List.drop_zero, hnoop]
    rw [if_pos hjne]
  have hrows' : speakerRowsOf s =
      Row.twoCol (rstripColon (tok ++ mid))
          ((split_text_into_lines (joinWords (splitWs rest)) MAX_LINE_LENGTH).headD []) ::
        ((split_text_into_lines (joinWords (splitWs rest)) MAX_LINE_LENGTH).drop 1).map
          (fun l => Row.twoCol [] l) := by
    unfold speakerRowsOf contentOf
    rw [hwords]
    simp only [List.headD_cons, List.drop_succ_cons, List.drop_zero, hnoop]
  refine ⟨by rw [hrows, hrows'], ?_⟩
  refine ⟨rstripColon (tok ++ mid), _, _, hrows, ?_⟩
  rw [rstripColon_upper haz hmid]
  exact hne

lemma speakerPlainRows_plain {s : List Char} (hns : speakerMatch s = false) :
    speakerPlainRows s = if s ≠ [] then [Row.twoCol [] s] else [] := by
  unfold speakerPlainRows
  rw [hns]
  simp

lemma not_emitsSpeaker_plain {s : List Char} (hns : speakerMatch s = false) :
    ¬ EmitsSpeaker (speakerPlainRows s) := by
  rw [speakerPlainRows_plain hns]
  rintro ⟨sp, c2, rest2, heq, hspne⟩
  by_cases he : s = []
  · rw [if_neg (by simp [he])] at heq
    cases heq
  · rw [if_pos he] at heq
    rw [List.cons.injEq] at heq
    have := heq.1
    rw [Row.twoCol.injEq] at this
    exact hspne this.1.symm

/-- The sample line `"JOHN"`: a bare uppercase token with no following text. -/
def johnLine : List Char := ['J', 'O', 'H', 'N']

/-- Counterexample to C4 as stated: the (already timecode-free) line `"JOHN"`
begins with an uppercase token not followed by a colon, yet the code does not
treat it as a speaker line — `speaker_pattern` also demands a following
whitespace character — so it is emitted as a plain row whose speaker cell is
empty. -/
theorem claim_C4_counterexample :
    (∃ tok : List Char, tok ≠ [] ∧ (∀ x ∈ tok, isAZ x = true) ∧
      ((splitWs (tcRemove (pyStrip johnLine))).headD [] = tok ∨
       (splitWs (tcRemove (pyStrip johnLine))).headD [] = tok ++ [':'])) ∧
    markerCond (pyStrip johnLine) = false ∧
    (processPara 20 ⟨0, false⟩ johnLine).snd = [Row.twoCol [] johnLine] ∧
    ¬ EmitsSpeaker (processPara 20 ⟨0, false⟩ johnLine).snd := by
  refine ⟨⟨['J', 'O', 'H', 'N'], by decide, by decide, Or.inl (by decide)⟩,
    by decide, by decide, ?_⟩
  rintro ⟨sp, c2, rest2, heq, hspne⟩
  rw [show (processPara 20 ⟨0, false⟩ johnLine).snd = [Row.twoCol [] johnLine]
    from by decide] at heq
  rw [List.cons.injEq] at heq
  have h1 := heq.1
  rw [Row.twoCol.injEq] at h1
  exact hspne h1.1.symm

/-- Claim C4 (amended): after segment-marker handling and timecode removal, a
non-marker line in the processed region is treated as a speaker line iff it
begins with an uppercase token, optionally a colon, followed by a whitespace
character; every such line emits its first word minus trailing colons in the
speaker column with the remaining words wrapped into the content column. -/
theorem claim_C4_amended (sepLen : Nat) (st : PState) (raw : List Char)
    (hskip : st.skip_pages = false) (hm : markerCond (pyStrip raw) = false) :
    (EmitsSpeaker (processPara sepLen st raw).snd ↔ SpecSpeaker (tcRemove (pyStrip raw)))
    ∧ (SpecSpeaker (tcRemove (pyStrip raw)) →
        (processPara sepLen st raw).snd = speakerRowsOf (tcRemove (pyStrip raw))) := by
  rw [processPara_normal hskip hm]
  have himg := tcRemove_strip_image raw
  constructor
  · constructor
    · intro he
      by_cases hsm : speakerMatch (tcRemove (pyStrip raw)) = true
      · exact (speakerMatch_iff _).mp hsm
      · exact absurd he (not_emitsSpeaker_plain (by simpa using hsm))
    · intro hsp
      exact (speakerPlainRows_speaker himg hsp).2
  · intro hsp
    exact (speakerPlainRows_speaker himg hsp).1

/-- The sample speaker line `"JOHN: hi there"`. -/
def speakerLine : List Char :=
  ['J', 'O', 'H', 'N', ':', ' ', 'h', 'i', ' ', 't', 'h', 'e', 'r', 'e']

/-- Witness for the amended C4 at the sample speaker line. -/
theorem claim_C4_witness :
    (EmitsSpeaker (processPara 15 ⟨0, false⟩ speakerLine).snd ↔
      SpecSpeaker (tcRemove (pyStrip speakerLine))) ∧
    (processPara 15 ⟨0, false⟩ speakerLine).snd =
      speakerRowsOf (tcRemove (pyStrip speakerLine)) :=
  have hc4 := claim_C4_amended 15 ⟨0, false⟩ speakerLine rfl (by decide)
  ⟨hc4.1, hc4.2 ⟨['J', 'O', 'H', 'N'], [':'], ' ',
    ['h', 'i', ' ', 't', 'h', 'e', 'r', 'e'],
    by decide, by decide, by decide, Or.inr rfl, by decide⟩⟩

/-- The sample plain line `"hello"`. -/
def helloLine : List Char := ['h', 'e', 'l', 'l', 'o']

/-- The sample line `"1:23"`: a bare timecode, which timecode removal turns
into the empty string. -/
def tcOnlyLine : List Char := ['1', ':', '2', '3']

lemma pyReplaceDel_nil (pat : List Char) : pyReplaceDel pat [] = [] := by
  unfold pyReplaceDel
  rfl

lemma pyReplaceDel_cons (pat : List Char) (c : Char) (cs : List Char) :
    pyReplaceDel pat (c :: cs) =
      if pat ≠ [] ∧ pat.isPrefixOf (c :: cs) = true
      then pyReplaceDel pat (cs.drop (pat.length - 1))
      else c :: pyReplaceDel pat cs := by
  conv_lhs => rw [pyReplaceDel]

lemma tcRemove_pyStrip_tcOnly : tcRemove (pyStrip tcOnlyLine) = [] := by
  rw [show pyStrip tcOnlyLine = tcOnlyLine from by decide]
  unfold tcRemove
  rw [show tcMatch tcOnlyLine = some tcOnlyLine from by decide]
  show pyStrip (pyReplaceDel tcOnlyLine tcOnlyLine) = []
  unfold tcOnlyLine
  rw [pyReplaceDel_cons, if_pos ⟨by decide, by decide⟩,
    show ([':', '2', '3'] : List Char).drop
      ((['1', ':', '2', '3'] : List Char).length - 1) = [] from by decide,
    pyReplaceDel_nil]
  decide

/-- Counterexample to C6 as stated, at two inputs: before any segment marker
is seen, the non-empty paragraph `"hello"` is skipped by the `skip_pages`
logic and emits no output row; and in the processed region the non-empty,
non-marker paragraph `"1:23"` becomes empty after timecode removal and also
emits no output row.  So not every paragraph read is classified and
re-emitted. -/
theorem claim_C6_counterexample :
    (pyStrip helloLine ≠ [] ∧ (runParas 10 initState [helloLine]).snd = []) ∧
      (pyStrip tcOnlyLine ≠ [] ∧ (processPara 10 ⟨1, false⟩ tcOnlyLine).snd = []) := by
  refine ⟨by decide, by decide, ?_⟩
  rw [processPara_normal rfl (by decide), tcRemove_pyStrip_tcOnly]
  decide

/-- Claim C6 (amended): paragraphs before the first segment marker are
skipped unprocessed; every segment-marker paragraph — including the first
one, reached while `skip_pages` is still set — is classified as a marker,
emits a separator row plus a bold header row, and leaves the skip region
ended; after it, every paragraph falls in exactly one of the three classes
and is re-emitted accordingly — speaker lines as rows headed by a non-empty
speaker cell, and plain lines as one full-text content row unless their
processed text is empty, in which case they emit nothing. -/
theorem claim_C6_amended (sepLen : Nat) (st : PState) (raw : List Char) :
    (st.skip_pages = true → markerCond (pyStrip raw) = false →
      processPara sepLen st raw = (st, []))
    ∧ (markerCond (pyStrip raw) = true →
        (processPara sepLen st raw).fst.skip_pages = false ∧
        ∃ h, (processPara sepLen st raw).snd =
          [Row.sep (List.replicate sepLen '-') false, Row.sep h true])
    ∧ (st.skip_pages = false → markerCond (pyStrip raw) = false →
        speakerMatch (tcRemove (pyStrip raw)) = true →
        ∃ sp c rest, (processPara sepLen st raw).snd = Row.twoCol sp c :: rest ∧
          sp ≠ [])
    ∧ (st.skip_pages = false → markerCond (pyStrip raw) = false →
        speakerMatch (tcRemove (pyStrip raw)) = false →
        (processPara sepLen st raw).snd =
          if tcRemove (pyStrip raw) ≠ []
          then [Row.twoCol [] (tcRemove (pyStrip raw))] else []) := by
  refine ⟨fun hskip hm => processPara_skip hskip hm, ?_, ?_, ?_⟩
  · intro hm
    rw [processPara_marker hm]
    exact ⟨rfl, _, rfl⟩
  · intro hskip hm hsm
    rw [processPara_normal hskip hm]
    exact (speakerPlainRows_speaker (tcRemove_strip_image raw)
      ((speakerMatch_iff _).mp hsm)).2
  · intro hskip hm hsm
    rw [processPara_normal hskip hm]
    exact speakerPlainRows_plain hsm

/-- Witness for the amended C6: a skipped paragraph; the first marker,
processed while `skip_pages` is still set, ending the skip region; and an
empty-after-preprocessing plain line emitting nothing. -/
theorem claim_C6_witness :
    processPara 7 ⟨1, true⟩ helloLine = (⟨1, true⟩, []) ∧
      ((processPara 7 ⟨0, true⟩ sampleMarker).fst.skip_pages = false ∧
        ∃ h, (processPara 7 ⟨0, true⟩ sampleMarker).snd =
          [Row.sep (List.replicate 7 '-') false, Row.sep h true]) ∧
      (processPara 7 ⟨1, false⟩ tcOnlyLine).snd =
        (if tcRemove (pyStrip tcOnlyLine) ≠ []
         then [Row.twoCol [] (tcRemove (pyStrip tcOnlyLine))] else []) :=
  ⟨(claim_C6_amended 7 ⟨1, true⟩ helloLine).1 rfl (by decide),
   (claim_C6_amended 7 ⟨0, true⟩ sampleMarker).2.1 (by decide),
   (claim_C6_amended 7 ⟨1, false⟩ tcOnlyLine).2.2.2 rfl (by decide)
     (by rw [tcRemove_pyStrip_tcOnly]; rfl)⟩

/-! ### Claim C9: timecode removal -/

/-- Declarative specification of Python's `s.replace(pat, "")`: scanning left
to right, every position where `pat` starts has that occurrence deleted
(so every occurrence anywhere in the string is removed, non-overlapping),
and every other character is kept. -/
inductive Removes (pat : List Char) : List Char → List Char → Prop
  | nil : Removes pat [] []
  | del : ∀ s r, Removes pat s r → Removes pat (pat ++ s) r
  | keep : ∀ c s r, ¬ pat <+: (c :: s) → Removes pat s r → Removes pat (c :: s) (c :: r)

lemma pyReplaceDel_removes (pat : List Char) (hne : pat ≠ []) :
    ∀ s : List Char, Removes pat s (pyReplaceDel pat s) := by
  have H : ∀ n (s : List Char), s.length ≤ n → Removes pat s (pyReplaceDel pat s) := by
    intro n
    induction n with
    | zero =>
      intro s hs
      have hnil : s = [] := List.eq_nil_of_length_eq_zero (Nat.le_zero.mp hs)
      subst hnil
      rw [pyReplaceDel_nil]
      exact .nil
    | succ n ih =>
      intro s hs
      cases s with
      | nil => rw [pyReplaceDel_nil]; exact .nil
      | cons c cs =>
        simp only [List.length_cons, Nat.succ_le_succ_iff] at hs
        rw [pyReplaceDel_cons]
        by_cases hp : pat ≠ [] ∧ pat.isPrefixOf (c :: cs) = true
        · rw [if_pos hp]
          obtain ⟨t, ht⟩ := (isPrefixOf_iff pat (c :: cs)).mp hp.2
          have hlen : pat.length + t.length = cs.length + 1 := by
            have := congrArg List.length ht
            simpa using this
          have hplen : 1 ≤ pat.length := by
            cases hpat : pat with
            | nil => exact absurd hpat hne
            | cons _ _ => simp
          have htt : t = cs.drop (pat.length - 1) := by
            have h1 : t = (c :: cs).drop pat.length := by
              rw [← ht]
              simp
            rw [h1]
            cases hpat : pat with
            | nil => exact absurd hpat hne
            | cons p ps => simp
          rw [← ht, ← htt]
          exact .del t _ (ih t (by omega))
        · rw [if_neg hp]
          refine .keep c cs _ ?_ (ih cs hs)
          intro hpre
          exact hp ⟨hne, (isPrefixOf_iff _ _).mpr hpre⟩
  intro s
  exact H s.length s (Nat.le_refl _)

/-- Claim C9: the timecode-removal step matches at the start of the line iff
the line begins with a timecode token (with its trailing word boundary); the
matched timecode has exactly that shape, every occurrence of it anywhere in
the line — not only the leading one — is deleted (`Removes`) and the result
stripped; a line not beginning with a timecode passes through unchanged. -/
theorem claim_C9 (s : List Char) :
    ((∃ tc, tcMatch s = some tc) ↔ BeginsTimecodeToken s)
    ∧ (∀ tc, tcMatch s = some tc →
        (∃ post, s = tc ++ post ∧ TimecodeShape tc ∧ boundaryAfter post = true) ∧
        Removes tc s (pyReplaceDel tc s) ∧
        tcRemove s = pyStrip (pyReplaceDel tc s))
    ∧ (tcMatch s = none → tcRemove s = s) := by
  refine ⟨?_, ?_, ?_⟩
  · rw [← tcMatch_isSome_iff]
    constructor
    · rintro ⟨tc, h⟩
      rw [h]
      rfl
    · intro h
      cases ho : tcMatch s with
      | none => rw [ho] at h; cases h
      | some tc => exact ⟨tc, rfl⟩
  · intro tc h
    obtain ⟨post, hpost, hsh, hb⟩ := tcMatch_sound s tc h
    refine ⟨⟨post, hpost, hsh, hb⟩, ?_, ?_⟩
    · exact pyReplaceDel_removes tc (timecodeShape_ne_nil hsh) s
    · unfold tcRemove
      rw [h]
  · intro h
    unfold tcRemove
    rw [h]

/-- The sample line `"1:23 a 1:23b"`, whose timecode occurs twice. -/
def tcLine : List Char := ['1', ':', '2', '3', ' ', 'a', ' ', '1', ':', '2', '3', 'b']

/-- Witness for C9 at the sample line. -/
theorem claim_C9_witness :
    (∃ tc, tcMatch tcLine = some tc) ∧
      Removes ['1', ':', '2', '3'] tcLine (pyReplaceDel ['1', ':', '2', '3'] tcLine) ∧
      tcRemove tcLine = pyStrip (pyReplaceDel ['1', ':', '2', '3'] tcLine) :=
  have h := (claim_C9 tcLine).2.1 ['1', ':', '2', '3'] (by decide)
  ⟨⟨['1', ':', '2', '3'], by decide⟩, h.2.1, h.2.2⟩

end TranscriptFormatter
